import Mathlib

/-!
Shallow embedding of the `clientPool` Go repository
(`bighu630/clientPool`): the per-handle circuit-breaker state
(`clientWrapper/client_wrapper.go`), the three selection algorithms
(`get_client.go`), the pool orchestration (`client_pool.go`, second
generation) and the middleware chain (`middleware/`).

Go `time.Time` instants and `time.Duration` values are modelled as `Int`
(nanosecond count); `time.Since(t) > cooldown` becomes
`now - t > cooldown` for the `now` at which the selector runs.
Go `int` fields that can only ever hold non-negative values in the code
(`failCount`, the round-robin cursor `index`) are modelled as `Nat`;
fields the code compares against caller-supplied ints (`weight`,
`maxFails`, the drawn random number) stay `Int`.
-/

namespace ClientPool

/-- Go struct `clientWrapped[T]` from `clientWrapper/client_wrapper.go`:
one client plus identity, weight and failure-tracking state. -/
structure ClientWrapped (T : Type) where
  Id : String
  client : T
  weight : Int
  failCount : Nat
  lastFail : Int
  unavailable : Bool
  deriving Repr, DecidableEq

variable {T : Type}

instance [Inhabited T] : Inhabited (ClientWrapped T) :=
  ⟨{ Id := "", client := default, weight := 0, failCount := 0,
     lastFail := 0, unavailable := false }⟩

/-- `NewClientWrapper(client, id, weight)`: fresh handle, zero failure
state; the zero `time.Time` is modelled as instant `0`. -/
def NewClientWrapper (client : T) (id : String) (weight : Int) :
    ClientWrapped T :=
  { Id := id, client := client, weight := weight, failCount := 0,
    lastFail := 0, unavailable := false }

/-- `(*clientWrapped).ResetAvailable`: zero the consecutive-failure count
and clear the unavailable flag. -/
def ResetAvailable (c : ClientWrapped T) : ClientWrapped T :=
  { c with failCount := 0, unavailable := false }

/-- `(*clientWrapped).MarkFail(maxFail)`: increment the consecutive
failures, trip the breaker once the count reaches `maxFail`, and stamp
the failure time (`time.Now()` is the parameter `now`). -/
def MarkFail (maxFail : Int) (now : Int) (c : ClientWrapped T) :
    ClientWrapped T :=
  let fc := c.failCount + 1
  { c with
    failCount := fc
    unavailable := if (fc : Int) ≥ maxFail then true else c.unavailable
    lastFail := now }

/-- `(*clientWrapped).MarkSuccess`: zero the count and clear the flag. -/
def MarkSuccess (c : ClientWrapped T) : ClientWrapped T :=
  { c with failCount := 0, unavailable := false }

/-- `(*clientWrapped).IsUnavailable`. -/
def IsUnavailable (c : ClientWrapped T) : Bool := c.unavailable

/-- `(*clientWrapped).GetLastFail`. -/
def GetLastFail (c : ClientWrapped T) : Int := c.lastFail

/-- `(*clientWrapped).GetWight`. -/
def GetWight (c : ClientWrapped T) : Int := c.weight

/-- `(*clientWrapped).GetClient`. -/
def GetClient (c : ClientWrapped T) : T := c.client

/-- `(*clientWrapped).GetClientId`. -/
def GetClientId (c : ClientWrapped T) : String := c.Id

/-- One call-site event on a handle's breaker state: the three mutating
operations a handle can undergo after creation. `fail t` is
`MarkFail(maxFails)` executed at instant `t`. -/
inductive HandleOp where
  | fail (t : Int)
  | success
  | reset
  deriving Repr, DecidableEq

/-- Apply one breaker operation (with the pool-configured `maxFails`). -/
def applyOp (maxFails : Int) (c : ClientWrapped T) : HandleOp → ClientWrapped T
  | .fail t => MarkFail maxFails t c
  | .success => MarkSuccess c
  | .reset => ResetAvailable c

/-- Apply a sequence of breaker operations, oldest first. -/
def applyOps (maxFails : Int) (c : ClientWrapped T) :
    List HandleOp → ClientWrapped T
  | [] => c
  | o :: os => applyOps maxFails (applyOp maxFails c o) os

/-- `n` consecutive `MarkFail(maxFails)` calls on a fresh handle, the
`k`-th (1-based) executed at instant `t k`. -/
def failsFromFresh (maxFails : Int) (t : Nat → Int) (client : T)
    (id : String) (w : Int) : Nat → ClientWrapped T
  | 0 => NewClientWrapper client id w
  | n + 1 => MarkFail maxFails (t (n + 1)) (failsFromFresh maxFails t client id w n)

/-! ### Errors, call results and observable events

Go errors are modelled by `GoErr`; a Go call that can also panic yields
an `ExecResult`, where `panicked s` stands for an un-recovered panic with
payload `s` unwinding the stack. Side effects a middleware or the user
operation performs (log writes, metric increments) are modelled by a
writer component `List Event` in every handler result. -/

/-- The error taxonomy visible at the pool surface. -/
inductive GoErr where
  | noAvailableClient
  | opError (s : String)
  | panicRecovered (payload : String)
  deriving Repr, DecidableEq

/-- Result of running a handler: normal return with `nil` (`ok`) or an
error, or a panic unwinding past it. -/
inductive ExecResult where
  | ok
  | err (e : GoErr)
  | panicked (payload : String)
  deriving Repr, DecidableEq

/-- An observable side effect, used to witness invocation order. -/
inductive Event where
  | enter (i : Nat)
  | exit (i : Nat)
  | op
  deriving Repr, DecidableEq

variable {Ctx : Type}

/-- Go type `func(ctx, client cw.ClientWrapped[T]) error`: the `next`
continuation a middleware receives. -/
abbrev Handler (Ctx T : Type) :=
  Ctx → ClientWrapped T → List Event × ExecResult

/-- `middleware.Middleware[T]` (second generation, `part_006`): one
capability `Execute(ctx, client, next) error` over the wrapped client. -/
structure Middleware (Ctx T : Type) where
  Execute : Ctx → ClientWrapped T → Handler Ctx T → List Event × ExecResult

/-- `middleware.RecoverMiddleware`: runs `next` under a deferred
`recover()`; a panic anywhere downstream becomes the error
`panic recovered: <payload>`; normal results pass through. -/
def RecoverMiddleware : Middleware Ctx T :=
  ⟨fun ctx cw next =>
    match next ctx cw with
    | (tr, .panicked s) => (tr, .err (.panicRecovered s))
    | r => r⟩

/-- `BalancerType` constants from `client_pool.go`. -/
inductive BalancerType where
  | RoundRobin
  | WeightedRandom
  | Random
  deriving Repr, DecidableEq

/-- Go struct `ClientPool[T]` (second generation, `part_002`). The
`rand.Rand` source is not part of the state; each draw is passed to the
selector as a parameter. -/
structure Pool (Ctx T : Type) where
  clients : List (ClientWrapped T)
  index : Nat
  maxFails : Int
  cooldown : Int
  defaultBalancer : BalancerType
  middlewares : List (Middleware Ctx T)

/-- `RegisterMiddleware`: append-only chain registration. -/
def RegisterMiddleware (p : Pool Ctx T) (m : Middleware Ctx T) :
    Pool Ctx T :=
  { p with middlewares := p.middlewares ++ [m] }

/-- `NewClientPool(maxFails, cooldown, defaultBalancer)`: empty pool,
then `RegisterMiddleware(RecoverMiddleware)` before returning. -/
def NewClientPool (maxFails cooldown : Int) (b : BalancerType) :
    Pool Ctx T :=
  RegisterMiddleware
    { clients := [], index := 0, maxFails := maxFails, cooldown := cooldown,
      defaultBalancer := b, middlewares := [] }
    RecoverMiddleware

/-- `AddClient(client, id, weight)`: weight `≤ 0` is coerced to `1`,
then a fresh wrapper is appended. -/
def AddClient (p : Pool Ctx T) (client : T) (id : String) (weight : Int) :
    Pool Ctx T :=
  { p with clients :=
      p.clients ++ [NewClientWrapper client id (if weight ≤ 0 then 1 else weight)] }

/-! ### Selection algorithms (`get_client.go`)

Each selector returns the selected handle together with its stable
position in `clients`, plus the pool state after the scan (lazy resets
persisted, cursor advanced). `now` is the instant at which
`time.Since` is evaluated. -/

/-- The lazy cooldown-expiry reset applied when a selector examines a
handle: `if cw.IsUnavailable() && time.Since(cw.GetLastFail()) > cooldown
{ cw.ResetAvailable() }`. -/
def lazyReset (now cooldown : Int) (cw : ClientWrapped T) : ClientWrapped T :=
  if cw.unavailable = true ∧ now - cw.lastFail > cooldown then
    ResetAvailable cw
  else cw

/-- The body of `roundRobin`'s `for` loop, with the remaining iteration
count as fuel (the Go loop runs `len(c.clients)` times). Each step reads
the handle at `index % len`, advances the cursor, lazily resets an
expired trip, and returns the handle if it is now available. -/
def rrScan (now : Int) : Nat → Pool Ctx T →
    Option (Nat × ClientWrapped T) × Pool Ctx T
  | 0, p => (none, p)
  | fuel + 1, p =>
    match p.clients[p.index % p.clients.length]? with
    | none => (none, p)
    | some cw =>
      let pos := p.index % p.clients.length
      if cw.unavailable = true ∧ now - cw.lastFail > p.cooldown then
        (some (pos, ResetAvailable cw),
         { p with clients := p.clients.set pos (ResetAvailable cw),
                  index := p.index + 1 })
      else if cw.unavailable = true then
        rrScan now fuel { p with index := p.index + 1 }
      else
        (some (pos, cw), { p with index := p.index + 1 })

/-- `(*ClientPool).roundRobin`. -/
def roundRobin (now : Int) (p : Pool Ctx T) :
    Option (Nat × ClientWrapped T) × Pool Ctx T :=
  if p.clients.length = 0 then (none, p)
  else rrScan now p.clients.length p

/-- The available subset built by `weightedRandom`'s first loop, paired
with each member's position in the (already lazily-reset) handle list;
`i` is the position of the list head. -/
def availFrom : Nat → List (ClientWrapped T) → List (Nat × ClientWrapped T)
  | _, [] => []
  | i, cw :: rest =>
    if cw.unavailable = true then availFrom (i + 1) rest
    else (i, cw) :: availFrom (i + 1) rest

/-- `weightedRandom`'s second loop: walk the valid subset accumulating
weight (`sum += cw.GetWight()`), returning the first member whose
running sum strictly exceeds the draw `r`. -/
def pickWeighted (r : Int) : List (Nat × ClientWrapped T) → Int →
    Option (Nat × ClientWrapped T)
  | [], _ => none
  | ic :: rest, acc =>
    let acc' := acc + ic.2.weight
    if r < acc' then some ic else pickWeighted r rest acc'

/-- Total weight of the valid subset. -/
def totalWeight (valid : List (Nat × ClientWrapped T)) : Int :=
  (valid.map (fun ic => ic.2.weight)).sum

/-- `(*ClientPool).weightedRandom`, with the uniform draw
`r = c.rand.Intn(total)` passed as a parameter (`0 ≤ r < total` whenever
the Go call reaches the draw). First loop: lazily reset every expired
handle and collect the available subset with its weights; fail if the
total weight is 0; otherwise walk the subset. -/
def weightedRandom (now r : Int) (p : Pool Ctx T) :
    Option (Nat × ClientWrapped T) × Pool Ctx T :=
  if p.clients.length = 0 then (none, p)
  else
    let clients' := p.clients.map (lazyReset now p.cooldown)
    let p' := { p with clients := clients' }
    let valid := availFrom 0 clients'
    if totalWeight valid = 0 then (none, p')
    else (pickWeighted r valid 0, p')

/-- `(*ClientPool).random`, with the uniform draw
`j = c.rand.Intn(len(c.clients))` passed as a parameter. Examines only
the drawn handle: lazily resets it, returns it if available, otherwise
fails without looking at any other handle. -/
def random (now : Int) (j : Nat) (p : Pool Ctx T) :
    Option (Nat × ClientWrapped T) × Pool Ctx T :=
  if p.clients.length = 0 then (none, p)
  else
    match p.clients[j]? with
    | none => (none, p)
    | some cw =>
      if cw.unavailable = true ∧ now - cw.lastFail > p.cooldown then
        (some (j, ResetAvailable cw),
         { p with clients := p.clients.set j (ResetAvailable cw) })
      else if cw.unavailable = true then (none, p)
      else (some (j, cw), p)

/-! ### Chain composition and the Execute family (`part_002`) -/

/-- `executeWithMiddleware`: fold the registered chain from last to
first around the user operation (the innermost handler calls `fn` with
`client.GetClient()`), then run the outermost handler. -/
def executeWithMiddleware (p : Pool Ctx T) (ctx : Ctx)
    (cw : ClientWrapped T) (fn : Ctx → T → List Event × ExecResult) :
    List Event × ExecResult :=
  let handler : Handler Ctx T := fun ctx cw => fn ctx cw.client
  (p.middlewares.foldr
    (fun m next => fun ctx cw => m.Execute ctx cw next) handler) ctx cw

/-- Shared tail of the three `Do*Client` entry points: given the
selector's outcome, short-circuit on selection failure, otherwise run
the chain-wrapped invocation and record exactly one outcome on the
selected handle (`MarkFail` on error, `MarkSuccess` otherwise). A panic
unwinding out of the chain skips the recording, as in Go. -/
def doWithSelection (now : Int) (ctx : Ctx)
    (sel : Option (Nat × ClientWrapped T) × Pool Ctx T)
    (fn : Ctx → T → List Event × ExecResult) :
    ExecResult × List Event × Pool Ctx T :=
  match sel with
  | (none, p') => (.err .noAvailableClient, [], p')
  | (some (pos, cw), p') =>
    let res := executeWithMiddleware p' ctx cw fn
    match res.2 with
    | .ok =>
      (.ok, res.1, { p' with clients := p'.clients.set pos (MarkSuccess cw) })
    | .err e =>
      (.err e, res.1,
       { p' with clients := p'.clients.set pos (MarkFail p'.maxFails now cw) })
    | .panicked s => (.panicked s, res.1, p')

/-- `(*ClientPool).DoRoundRobinClient`. -/
def DoRoundRobinClient (now : Int) (ctx : Ctx) (p : Pool Ctx T)
    (fn : Ctx → T → List Event × ExecResult) :
    ExecResult × List Event × Pool Ctx T :=
  doWithSelection now ctx (roundRobin now p) fn

/-- `(*ClientPool).DoRandomClient` (draw `j`). -/
def DoRandomClient (now : Int) (j : Nat) (ctx : Ctx) (p : Pool Ctx T)
    (fn : Ctx → T → List Event × ExecResult) :
    ExecResult × List Event × Pool Ctx T :=
  doWithSelection now ctx (random now j p) fn

/-- `(*ClientPool).DoWeightedRandomClient` (draw `r`). -/
def DoWeightedRandomClient (now r : Int) (ctx : Ctx) (p : Pool Ctx T)
    (fn : Ctx → T → List Event × ExecResult) :
    ExecResult × List Event × Pool Ctx T :=
  doWithSelection now ctx (weightedRandom now r p) fn

/-- `(*ClientPool).Do`: dispatch on the configured default strategy
(`Random` is the `default:` arm of the Go `switch`). -/
def Do (now r : Int) (j : Nat) (ctx : Ctx) (p : Pool Ctx T)
    (fn : Ctx → T → List Event × ExecResult) :
    ExecResult × List Event × Pool Ctx T :=
  match p.defaultBalancer with
  | .RoundRobin => DoRoundRobinClient now ctx p fn
  | .WeightedRandom => DoWeightedRandomClient now r ctx p fn
  | .Random => DoRandomClient now j ctx p fn

/-! ### Observers used to state the claims -/

/-- A handle at position `pos` of `p` is selectable at instant `now`:
either currently available, or tripped with its cooldown expired (a
selector's scan would lazily reset it). -/
def selectableAt (now : Int) (p : Pool Ctx T) (pos : Nat) : Prop :=
  ∃ cw, p.clients[pos]? = some cw ∧
    (cw.unavailable = false ∨ now - cw.lastFail > p.cooldown)

/-- Running prefix sum of the weights of the first `i` members of the
valid subset (`sum` just before the `i`-th iteration of
`weightedRandom`'s walk). -/
def prefixW (vs : List (Nat × ClientWrapped T)) (i : Nat) : Int :=
  ((vs.take i).map (fun ic => ic.2.weight)).sum

/-- A middleware that only logs: emits `enter i` before calling `next`
and `exit i` after it returns, transforming nothing. -/
def logMw (i : Nat) : Middleware Ctx T :=
  ⟨fun ctx cw next =>
    let r := next ctx cw
    (Event.enter i :: (r.1 ++ [Event.exit i]), r.2)⟩

/-- A user operation that logs one `op` event and returns `res`. -/
def opLog (res : ExecResult) : Ctx → T → List Event × ExecResult :=
  fun _ _ => ([Event.op], res)

/-- The ids selected by `n` consecutive `DoRoundRobinClient` calls
(each call's selection observed by re-running the pure selector on the
same pool state the call saw). -/
def rrRun (now : Int) (ctx : Ctx) (fn : Ctx → T → List Event × ExecResult) :
    Nat → Pool Ctx T → List (Option String)
  | 0, _ => []
  | n + 1, p =>
    ((roundRobin now p).1.map fun pc => pc.2.Id) ::
      rrRun now ctx fn n (DoRoundRobinClient now ctx p fn).2.2

/-- Fresh pool with three available clients `c1, c2, c3` registered in
that order (the C1 example). -/
def threePool : Pool Unit Unit :=
  AddClient (AddClient (AddClient
    (NewClientPool 3 100 .RoundRobin) () "c1" 1) () "c2" 1) () "c3" 1

/-- The always-succeeding silent operation. -/
def okOp : Unit → Unit → List Event × ExecResult := fun _ _ => ([], .ok)

/-- Pool for the C5 counterexample: handle `a` available, handle `b`
tripped with 3 consecutive failures whose cooldown has expired by
instant 100. -/
def cexPool : Pool Unit Unit :=
  { clients :=
      [{ Id := "a", client := (), weight := 1, failCount := 0,
         lastFail := 0, unavailable := false },
       { Id := "b", client := (), weight := 1, failCount := 3,
         lastFail := 0, unavailable := true }]
    index := 0, maxFails := 3, cooldown := 10,
    defaultBalancer := .WeightedRandom, middlewares := [] }

/-- A user operation that logs one `op` event and then panics with
payload `s`. -/
def panicOp (s : String) : Ctx → T → List Event × ExecResult :=
  fun _ _ => ([Event.op], .panicked s)

/-- The handler produced by `executeWithMiddleware`'s fold for a given
chain: the first middleware of `ms` is the outermost wrapper, the user
operation the innermost handler. -/
def chainHandler (ms : List (Middleware Ctx T))
    (fn : Ctx → T → List Event × ExecResult) : Handler Ctx T :=
  ms.foldr (fun m next => fun ctx cw => m.Execute ctx cw next)
    (fun ctx cw => fn ctx cw.client)

/-- A tripped handle (3 consecutive failures, last at instant 0). -/
def trippedCW : ClientWrapped Unit :=
  { Id := "t", client := (), weight := 1, failCount := 3, lastFail := 0,
    unavailable := true }

/-- Pool holding only `trippedCW`, cooldown 10. -/
def oneTrippedPool : Pool Unit Unit :=
  { clients := [trippedCW], index := 0, maxFails := 3, cooldown := 10,
    defaultBalancer := .RoundRobin, middlewares := [] }

/-- Pool with three available handles of weights 1, 2, 3. -/
def wPool : Pool Unit Unit :=
  AddClient (AddClient (AddClient
    (NewClientPool 3 100 .WeightedRandom) () "a" 1) () "b" 2) () "c" 3

/-- Pool whose chain is three logging middlewares, in order 0, 1, 2. -/
def logPool : Pool Unit Unit :=
  { clients := [], index := 0, maxFails := 3, cooldown := 10,
    defaultBalancer := .RoundRobin,
    middlewares := [logMw 0, logMw 1, logMw 2] }

/-- The handle list after `weightedRandom`'s lazy-reset pass. -/
def wrClients (now : Int) (p : Pool Ctx T) : List (ClientWrapped T) :=
  p.clients.map (lazyReset now p.cooldown)

/-- The pool state `weightedRandom` leaves behind. -/
def wrPool (now : Int) (p : Pool Ctx T) : Pool Ctx T :=
  { p with clients := wrClients now p }

/-- The valid (available) subset `weightedRandom` draws from, with
stable positions. -/
def wrValid (now : Int) (p : Pool Ctx T) : List (Nat × ClientWrapped T) :=
  availFrom 0 (wrClients now p)

/-! ## Helper lemmas -/

theorem list_set_self {α : Type} :
    ∀ (l : List α) (n : Nat) (v : α), l[n]? = some v → l.set n v = l := by
  intro l
  induction l with
  | nil => intro n v h; simp at h
  | cons a t ih =>
    intro n v h
    cases n with
    | zero => simp_all [List.set]
    | succ m =>
      simp only [List.getElem?_cons_succ] at h
      simp [List.set, ih m v h]

theorem markFail_failCount (maxFail now : Int) (c : ClientWrapped T) :
    (MarkFail maxFail now c).failCount = c.failCount + 1 := rfl

theorem markFail_lastFail (maxFail now : Int) (c : ClientWrapped T) :
    (MarkFail maxFail now c).lastFail = now := rfl

theorem failsFromFresh_failCount (maxFails : Int) (t : Nat → Int)
    (client : T) (id : String) (w : Int) :
    ∀ n, (failsFromFresh maxFails t client id w n).failCount = n := by
  intro n
  induction n with
  | zero => rfl
  | succ m ih => simp [failsFromFresh, MarkFail, ih]

theorem failsFromFresh_unavailable (maxFails : Int) (hm : 1 ≤ maxFails)
    (t : Nat → Int) (client : T) (id : String) (w : Int) :
    ∀ n, ((failsFromFresh maxFails t client id w n).unavailable = true ↔
      maxFails ≤ (n : Int)) := by
  intro n
  induction n with
  | zero =>
    simp only [failsFromFresh, NewClientWrapper, Nat.cast_zero]
    constructor
    · intro h; exact absurd h (by simp)
    · intro h; omega
  | succ m ih =>
    have hc := failsFromFresh_failCount maxFails t client id w m
    simp only [failsFromFresh, MarkFail, hc, ge_iff_le]
    by_cases hge : maxFails ≤ ((m + 1 : Nat) : Int)
    · rw [if_pos hge]
      push_cast at hge ⊢
      simp only [true_iff]
      omega
    · rw [if_neg hge]
      rw [ih]
      push_cast at hge ⊢
      omega

theorem breaker_inv_step (maxFails : Int) (c : ClientWrapped T) (o : HandleOp)
    (h : c.unavailable = true → maxFails ≤ (c.failCount : Int)) :
    (applyOp maxFails c o).unavailable = true →
      maxFails ≤ ((applyOp maxFails c o).failCount : Int) := by
  cases o with
  | fail tm =>
    simp only [applyOp, MarkFail]
    by_cases hge : ((c.failCount + 1 : Nat) : Int) ≥ maxFails
    · rw [if_pos hge]
      intro _
      exact hge
    · rw [if_neg hge]
      intro hu
      have := h hu
      push_cast
      push_cast at this
      omega
  | success => simp [applyOp, MarkSuccess]
  | reset => simp [applyOp, ResetAvailable]

theorem breaker_inv_ops (maxFails : Int) :
    ∀ (ops : List HandleOp) (c : ClientWrapped T),
    (c.unavailable = true → maxFails ≤ (c.failCount : Int)) →
    ((applyOps maxFails c ops).unavailable = true →
      maxFails ≤ ((applyOps maxFails c ops).failCount : Int)) := by
  intro ops
  induction ops with
  | nil => intro c h; exact h
  | cons o os ih =>
    intro c h
    exact ih _ (breaker_inv_step maxFails c o h)

theorem rr_singleton (now' : Int) (p : Pool Ctx T) (cw : ClientWrapped T)
    (hc : p.clients = [cw]) (hu : cw.unavailable = true) :
    ((roundRobin now' p).1.isSome = true) ↔ now' - cw.lastFail > p.cooldown := by
  simp only [roundRobin, rrScan, hc, List.length_singleton, Nat.mod_one]
  norm_num
  by_cases hexp : now' - cw.lastFail > p.cooldown
  · rw [if_pos ⟨hu, hexp⟩]
    simp [hexp]
  · rw [if_neg (by intro hand; exact hexp hand.2)]
    rw [if_pos hu]
    simp [rrScan, hexp]

/-! ## Claim theorems -/

/-- C2: for every handle and every `maxFails ≥ 1`, starting from a
fresh handle, each `MarkFail` increments the consecutive-failure count
by one and stamps the failure time, the handle is tripped exactly when
the count has reached `maxFails`, and `MarkSuccess` in any state zeroes
the count and makes the handle available again. -/
theorem markFail_markSuccess_breaker_spec
    (maxFails : Int) (hm : 1 ≤ maxFails) (t : Nat → Int)
    (client : T) (id : String) (w : Int) :
    (∀ (now : Int) (c : ClientWrapped T),
      (MarkFail maxFails now c).failCount = c.failCount + 1) ∧
    (∀ n, (failsFromFresh maxFails t client id w n).failCount = n) ∧
    (∀ n, ((failsFromFresh maxFails t client id w n).unavailable = true ↔
      maxFails ≤ (n : Int))) ∧
    (∀ n, (failsFromFresh maxFails t client id w (n + 1)).lastFail = t (n + 1)) ∧
    (∀ c : ClientWrapped T,
      (MarkSuccess c).failCount = 0 ∧ (MarkSuccess c).unavailable = false) := by
  refine ⟨fun now c => rfl,
    failsFromFresh_failCount maxFails t client id w,
    failsFromFresh_unavailable maxFails hm t client id w,
    fun n => rfl,
    fun c => ⟨rfl, rfl⟩⟩

/-- Witness for C2 at `maxFails = 2`: tripped after the 2nd failure,
not after the 1st. -/
theorem markFail_markSuccess_breaker_spec_witness :
    (failsFromFresh 2 (fun k => (k : Int)) () "c" 1 2).unavailable = true ∧
    (failsFromFresh 2 (fun k => (k : Int)) () "c" 1 1).unavailable = false := by
  have h := markFail_markSuccess_breaker_spec 2 (by norm_num)
    (fun k => (k : Int)) () "c" 1
  constructor
  · exact (h.2.2.1 2).mpr (by norm_num)
  · cases hb : (failsFromFresh 2 (fun k => (k : Int)) () "c" 1 1).unavailable
    · rfl
    · exact absurd ((h.2.2.1 1).mp hb) (by norm_num)

/-- C3: for every handle state reachable from a fresh handle by any
sequence of `MarkFail` (with the configured `maxFails`), `MarkSuccess`
and `ResetAvailable`, a tripped handle has at least `maxFails`
consecutive failures. -/
theorem tripped_implies_maxFails_invariant
    (maxFails : Int) (client : T) (id : String) (w : Int)
    (ops : List HandleOp)
    (h : (applyOps maxFails (NewClientWrapper client id w) ops).unavailable = true) :
    maxFails ≤ ((applyOps maxFails (NewClientWrapper client id w) ops).failCount : Int) := by
  refine breaker_inv_ops maxFails ops (NewClientWrapper client id w) ?_ h
  intro hu
  exact absurd hu (by simp [NewClientWrapper])

/-- Witness for C3: one failure with `maxFails = 1` trips the handle,
and the invariant gives `1 ≤ failCount`. -/
theorem tripped_implies_maxFails_invariant_witness :
    (applyOps 1 (NewClientWrapper () "c" 1) [HandleOp.fail 0]).unavailable = true ∧
    (1 : Int) ≤ ((applyOps 1 (NewClientWrapper () "c" 1) [HandleOp.fail 0]).failCount : Int) :=
  ⟨by decide, tripped_implies_maxFails_invariant 1 () "c" 1 [HandleOp.fail 0] (by decide)⟩

/-- C10: `MarkFail` stamps the last-failure time on every invocation,
even when the failure does not trip the breaker (availability is then
unchanged); consequently the cooldown window a selector consults runs
from the handle's most recent failure, not from the trip: a tripped
handle is selectable exactly when `now - lastFail > cooldown`. -/
theorem markFail_updates_lastFail_spec :
    (∀ (maxFail now : Int) (c : ClientWrapped T),
      (MarkFail maxFail now c).lastFail = now) ∧
    (∀ (maxFail now : Int) (c : ClientWrapped T),
      ((c.failCount : Int) + 1 < maxFail →
        (MarkFail maxFail now c).unavailable = c.unavailable)) ∧
    (∀ (now' : Int) (p : Pool Ctx T) (cw : ClientWrapped T),
      p.clients = [cw] → cw.unavailable = true →
      (((roundRobin now' p).1.isSome = true) ↔
        now' - cw.lastFail > p.cooldown)) := by
  refine ⟨fun maxFail now c => rfl, ?_, rr_singleton⟩
  intro maxFail now c hlt
  simp only [MarkFail]
  rw [if_neg]
  push_cast
  omega

/-- Witness for C10: a non-tripping failure at instant 7 leaves the
fresh handle available but moves `lastFail` to 7; the tripped singleton
pool is selectable at instant 50 (cooldown 10, last failure at 0). -/
theorem markFail_updates_lastFail_spec_witness :
    (MarkFail 2 7 (NewClientWrapper () "c" 1)).lastFail = 7 ∧
    (MarkFail 2 7 (NewClientWrapper () "c" 1)).unavailable =
      (NewClientWrapper () "c" 1).unavailable ∧
    ((roundRobin 50 oneTrippedPool).1.isSome = true) := by
  have h := @markFail_updates_lastFail_spec Unit Unit
  refine ⟨h.1 2 7 _, h.2.1 2 7 _ (by norm_num [NewClientWrapper]), ?_⟩
  exact (h.2.2 50 oneTrippedPool trippedCW rfl rfl).mpr (by norm_num [trippedCW, oneTrippedPool])

theorem chainHandler_log (res : ExecResult) (ctx : Ctx) (cw : ClientWrapped T) :
    ∀ (is : List Nat),
    chainHandler (is.map logMw) (opLog res) ctx cw =
      (is.map Event.enter ++ Event.op :: is.reverse.map Event.exit, res) := by
  intro is
  induction is with
  | nil => simp [chainHandler, opLog]
  | cons i rest ih =>
    simp only [List.map_cons, chainHandler, List.foldr_cons, logMw] at ih ⊢
    rw [ih]
    simp [List.reverse_cons]

/-- C4: the composed chain nests the first-registered middleware
outermost and the last-registered innermost next to the user operation:
`executeWithMiddleware` runs the fold `chainHandler`, `chainHandler`
peels the chain head as the outermost wrapper, and a chain of logging
middlewares `is` produces entry events in registration order followed
by the operation, then exit events in reverse registration order. -/
theorem middleware_chain_onion_order :
    (∀ (p : Pool Ctx T) (ctx : Ctx) (cw : ClientWrapped T)
       (fn : Ctx → T → List Event × ExecResult),
      executeWithMiddleware p ctx cw fn = chainHandler p.middlewares fn ctx cw) ∧
    (∀ (m : Middleware Ctx T) (ms : List (Middleware Ctx T))
       (fn : Ctx → T → List Event × ExecResult) (ctx : Ctx) (cw : ClientWrapped T),
      chainHandler (m :: ms) fn ctx cw = m.Execute ctx cw (chainHandler ms fn)) ∧
    (∀ (p : Pool Ctx T) (is : List Nat) (res : ExecResult) (ctx : Ctx)
       (cw : ClientWrapped T),
      p.middlewares = is.map logMw →
      executeWithMiddleware p ctx cw (opLog res) =
        (is.map Event.enter ++ Event.op :: is.reverse.map Event.exit, res)) := by
  refine ⟨fun p ctx cw fn => rfl, fun m ms fn ctx cw => rfl, ?_⟩
  intro p is res ctx cw hms
  have : executeWithMiddleware p ctx cw (opLog res) =
      chainHandler p.middlewares (opLog res) ctx cw := rfl
  rw [this, hms]
  exact chainHandler_log res ctx cw is

/-- Witness for C4 with middlewares 0, 1, 2: entry order 0,1,2,op and
exit order op,2,1,0. -/
theorem middleware_chain_onion_order_witness :
    executeWithMiddleware logPool () (NewClientWrapper () "x" 1) (opLog .ok) =
      ([Event.enter 0, Event.enter 1, Event.enter 2, Event.op,
        Event.exit 2, Event.exit 1, Event.exit 0], .ok) := by
  have h := (@middleware_chain_onion_order Unit Unit).2.2
    logPool [0, 1, 2] .ok () (NewClientWrapper () "x" 1) rfl
  simpa using h

theorem rrScan_all_unavailable (now : Int) :
    ∀ (fuel : Nat) (p : Pool Ctx T),
    0 < p.clients.length →
    (∀ k < fuel, ¬ selectableAt now p ((p.index + k) % p.clients.length)) →
    rrScan now fuel p = (none, { p with index := p.index + fuel }) := by
  intro fuel
  induction fuel with
  | zero => intro p _ _; simp [rrScan]
  | succ fuel ih =>
    intro p hlen hsel
    have hlt : p.index % p.clients.length < p.clients.length :=
      Nat.mod_lt _ hlen
    have hcw : p.clients[p.index % p.clients.length]? =
        some (p.clients.get ⟨p.index % p.clients.length, hlt⟩) := by
      simp [List.getElem?_eq_getElem hlt]
    set cw := p.clients.get ⟨p.index % p.clients.length, hlt⟩ with hcwdef
    have h0 := hsel 0 (Nat.succ_pos fuel)
    rw [Nat.add_zero] at h0
    have hu : cw.unavailable = true := by
      cases hb : cw.unavailable
      · exact absurd ⟨cw, hcw, Or.inl hb⟩ h0
      · rfl
    have hne : ¬ (now - cw.lastFail > p.cooldown) :=
      fun hexp => h0 ⟨cw, hcw, Or.inr hexp⟩
    simp only [rrScan, hcw]
    rw [if_neg (by intro hand; exact hne hand.2)]
    rw [if_pos hu]
    have hstep := ih { p with index := p.index + 1 }
      (by simpa using hlen)
      (by
        intro k hk
        have := hsel (k + 1) (by omega)
        simpa [Nat.add_assoc, Nat.add_comm 1 k] using this)
    rw [hstep]
    have harith : p.index + 1 + fuel = p.index + (fuel + 1) := by omega
    rw [harith]

theorem rrScan_finds (now : Int) :
    ∀ (fuel : Nat) (p : Pool Ctx T) (k₀ : Nat) (cw : ClientWrapped T),
    0 < p.clients.length →
    k₀ < fuel →
    (∀ k < k₀, ¬ selectableAt now p ((p.index + k) % p.clients.length)) →
    p.clients[(p.index + k₀) % p.clients.length]? = some cw →
    (cw.unavailable = false ∨ now - cw.lastFail > p.cooldown) →
    rrScan now fuel p =
      (some ((p.index + k₀) % p.clients.length, lazyReset now p.cooldown cw),
       { p with
          clients := p.clients.set ((p.index + k₀) % p.clients.length)
            (lazyReset now p.cooldown cw),
          index := p.index + k₀ + 1 }) := by
  intro fuel
  induction fuel with
  | zero => intro p k₀ cw _ hk; exact absurd hk (Nat.not_lt_zero _)
  | succ fuel ih =>
    intro p k₀ cw hlen hk hsel hcw hok
    cases k₀ with
    | zero =>
      rw [Nat.add_zero] at hcw
      by_cases hu : cw.unavailable = true
      · have hexp : now - cw.lastFail > p.cooldown := by
          rcases hok with hf | he
          · rw [hu] at hf; exact absurd hf (by simp)
          · exact he
        have hcond : cw.unavailable = true ∧ now - cw.lastFail > p.cooldown :=
          ⟨hu, hexp⟩
        simp only [rrScan, hcw]
        rw [if_pos hcond]
        simp only [lazyReset, if_pos hcond, Nat.add_zero]
      · have hf : cw.unavailable = false := by
          cases hb : cw.unavailable
          · rfl
          · exact absurd hb hu
        simp only [rrScan, hcw]
        rw [if_neg (fun hand => hu hand.1)]
        rw [if_neg hu]
        have hlz : lazyReset now p.cooldown cw = cw := by
          simp only [lazyReset]
          rw [if_neg (fun hand => hu hand.1)]
        simp only [Nat.add_zero, hlz, list_set_self _ _ _ hcw]
    | succ k =>
      have hlt : p.index % p.clients.length < p.clients.length :=
        Nat.mod_lt _ hlen
      have hcw0 : p.clients[p.index % p.clients.length]? =
          some (p.clients.get ⟨p.index % p.clients.length, hlt⟩) := by
        simp [List.getElem?_eq_getElem hlt]
      set cw0 := p.clients.get ⟨p.index % p.clients.length, hlt⟩ with hcw0def
      have h0 := hsel 0 (Nat.succ_pos k)
      rw [Nat.add_zero] at h0
      have hu0 : cw0.unavailable = true := by
        cases hb : cw0.unavailable
        · exact absurd ⟨cw0, hcw0, Or.inl hb⟩ h0
        · rfl
      have hne0 : ¬ (now - cw0.lastFail > p.cooldown) :=
        fun hexp => h0 ⟨cw0, hcw0, Or.inr hexp⟩
      simp only [rrScan, hcw0]
      rw [if_neg (by intro hand; exact hne0 hand.2)]
      rw [if_pos hu0]
      have harith : ∀ m : Nat, p.index + 1 + m = p.index + (m + 1) := by omega
      have hstep := ih { p with index := p.index + 1 } k cw
        (by simpa using hlen)
        (by omega)
        (by
          intro j hj
          have := hsel (j + 1) (by omega)
          simpa [harith j] using this)
        (by simpa [harith k] using hcw)
        hok
      rw [hstep]
      simp only [harith k]

/-- C1: the RoundRobin selector starts its scan at `cursor mod length`
and advances the cursor by one for every handle examined (never
resetting it): when the first `k₀` scan positions are unselectable and
position `(cursor + k₀) mod length` holds a selectable handle, that
handle is returned (lazily reset if its cooldown expired) and the
cursor ends at `cursor + k₀ + 1`; when no handle in the full cycle is
selectable the scan fails after advancing the cursor by `length`. In
particular on a fresh pool with three available handles `c1, c2, c3`,
six successful calls select `[c1, c2, c3, c1, c2, c3]`. -/
theorem roundRobin_cursor_scan_spec :
    (∀ (p : Pool Ctx T) (now : Int),
      0 < p.clients.length →
      (∀ k < p.clients.length,
        ¬ selectableAt now p ((p.index + k) % p.clients.length)) →
      roundRobin now p = (none, { p with index := p.index + p.clients.length })) ∧
    (∀ (p : Pool Ctx T) (now : Int) (k₀ : Nat) (cw : ClientWrapped T),
      k₀ < p.clients.length →
      (∀ k < k₀, ¬ selectableAt now p ((p.index + k) % p.clients.length)) →
      p.clients[(p.index + k₀) % p.clients.length]? = some cw →
      (cw.unavailable = false ∨ now - cw.lastFail > p.cooldown) →
      roundRobin now p =
        (some ((p.index + k₀) % p.clients.length, lazyReset now p.cooldown cw),
         { p with
            clients := p.clients.set ((p.index + k₀) % p.clients.length)
              (lazyReset now p.cooldown cw),
            index := p.index + k₀ + 1 })) ∧
    rrRun 0 () okOp 6 threePool =
      [some "c1", some "c2", some "c3", some "c1", some "c2", some "c3"] := by
  refine ⟨?_, ?_, by rfl⟩
  · intro p now hlen hsel
    rw [roundRobin, if_neg (by omega)]
    exact rrScan_all_unavailable now p.clients.length p hlen hsel
  · intro p now k₀ cw hk hsel hcw hok
    rw [roundRobin, if_neg (by omega)]
    exact rrScan_finds now p.clients.length p k₀ cw (by omega) hk hsel hcw hok

/-- Witness for C1: on the fresh three-handle pool at cursor 0 the scan
selects position 0 and leaves the cursor at 1. -/
theorem roundRobin_cursor_scan_spec_witness :
    roundRobin 0 threePool =
      (some ((threePool.index + 0) % threePool.clients.length,
        lazyReset 0 threePool.cooldown (NewClientWrapper () "c1" 1)),
       { threePool with
          clients := threePool.clients.set
            ((threePool.index + 0) % threePool.clients.length)
            (lazyReset 0 threePool.cooldown (NewClientWrapper () "c1" 1)),
          index := threePool.index + 0 + 1 }) :=
  (@roundRobin_cursor_scan_spec Unit Unit).2.1
    threePool 0 0 (NewClientWrapper () "c1" 1) (by decide)
    (fun k hk => absurd hk (by omega)) (by decide) (Or.inl rfl)

/-- C8: the Random selector examines exactly the one drawn index `j`
(the draw ranges over all handles, tripped ones included): if that
handle is tripped with an unexpired cooldown the call fails immediately
with no state change, otherwise it is returned (lazily reset when
expired); the selection outcome depends only on entry `j`, never on any
other handle. -/
theorem random_single_shot_spec
    (p : Pool Ctx T) (now : Int) (j : Nat) (cw : ClientWrapped T)
    (hlen : 0 < p.clients.length)
    (hcw : p.clients[j]? = some cw) :
    ((cw.unavailable = true ∧ ¬ now - cw.lastFail > p.cooldown) →
       random now j p = (none, p)) ∧
    ((cw.unavailable = false ∨ now - cw.lastFail > p.cooldown) →
       random now j p =
         (some (j, lazyReset now p.cooldown cw),
          { p with clients := p.clients.set j (lazyReset now p.cooldown cw) })) ∧
    (∀ (q : Pool Ctx T), q.clients[j]? = p.clients[j]? →
       q.cooldown = p.cooldown → 0 < q.clients.length →
       (random now j q).1 = (random now j p).1) := by
  refine ⟨?_, ?_, ?_⟩
  · intro h
    rw [random, if_neg (by omega)]
    simp only [hcw]
    rw [if_neg (fun hand => h.2 hand.2)]
    rw [if_pos h.1]
  · intro h
    rw [random, if_neg (by omega)]
    simp only [hcw]
    by_cases hu : cw.unavailable = true
    · have hexp : now - cw.lastFail > p.cooldown := by
        rcases h with hf | he
        · rw [hu] at hf; exact absurd hf (by simp)
        · exact he
      have hcond : cw.unavailable = true ∧ now - cw.lastFail > p.cooldown :=
        ⟨hu, hexp⟩
      rw [if_pos hcond]
      simp only [lazyReset, if_pos hcond]
    · rw [if_neg (fun hand => hu hand.1)]
      rw [if_neg hu]
      have hlz : lazyReset now p.cooldown cw = cw := by
        simp only [lazyReset]
        rw [if_neg (fun hand => hu hand.1)]
      simp only [hlz, list_set_self _ _ _ hcw]
  · intro q hq hcool hqlen
    rw [random, random, if_neg (by omega), if_neg (by omega)]
    rw [hq, hcool]
    simp only [hcw]
    by_cases h1 : cw.unavailable = true ∧ now - cw.lastFail > p.cooldown
    · rw [if_pos h1, if_pos h1]
    · rw [if_neg h1, if_neg h1]
      by_cases h2 : cw.unavailable = true
      · rw [if_pos h2, if_pos h2]
      · rw [if_neg h2, if_neg h2]

/-- Witness for C8: drawing the tripped, unexpired handle at instant 5
fails immediately with the pool unchanged. -/
theorem random_single_shot_spec_witness :
    random 5 0 oneTrippedPool = (none, oneTrippedPool) :=
  (random_single_shot_spec oneTrippedPool 5 0 trippedCW (by decide)
    (by decide)).1 (by decide)

theorem prefixW_zero (vs : List (Nat × ClientWrapped T)) : prefixW vs 0 = 0 := by
  simp [prefixW]

theorem prefixW_cons_succ (ic : Nat × ClientWrapped T)
    (rest : List (Nat × ClientWrapped T)) (i : Nat) :
    prefixW (ic :: rest) (i + 1) = ic.2.weight + prefixW rest i := by
  simp [prefixW]

theorem prefixW_nonneg (vs : List (Nat × ClientWrapped T)) (i : Nat)
    (hw : ∀ ic ∈ vs, 0 ≤ ic.2.weight) : 0 ≤ prefixW vs i := by
  refine List.sum_nonneg ?_
  intro x hx
  rcases List.mem_map.mp hx with ⟨ic, hic, hxe⟩
  exact hxe ▸ hw ic (List.take_subset i vs hic)

theorem pickWeighted_spec :
    ∀ (vs : List (Nat × ClientWrapped T)) (acc r : Int) (i : Nat)
      (hi : i < vs.length),
    (∀ ic ∈ vs, 0 ≤ ic.2.weight) →
    acc + prefixW vs i ≤ r → r < acc + prefixW vs (i + 1) →
    pickWeighted r vs acc = some (vs.get ⟨i, hi⟩) := by
  intro vs
  induction vs with
  | nil => intro acc r i hi; exact absurd hi (by simp)
  | cons ic rest ih =>
    intro acc r i hi hw hlo hhi
    cases i with
    | zero =>
      rw [prefixW_zero] at hlo
      rw [prefixW_cons_succ, prefixW_zero, Int.add_zero] at hhi
      simp only [pickWeighted]
      rw [if_pos (by omega)]
      rfl
    | succ j =>
      rw [prefixW_cons_succ] at hlo hhi
      have hwrest : ∀ x ∈ rest, 0 ≤ x.2.weight :=
        fun x hx => hw x (List.mem_cons_of_mem _ hx)
      have hpn : 0 ≤ prefixW rest j := prefixW_nonneg rest j hwrest
      simp only [pickWeighted]
      rw [if_neg (by omega)]
      have := ih (acc + ic.2.weight) r j (by simpa using hi) hwrest
        (by omega) (by omega)
      rw [this]
      rfl

theorem pickWeighted_isSome :
    ∀ (vs : List (Nat × ClientWrapped T)) (acc r : Int),
    (∀ ic ∈ vs, 0 ≤ ic.2.weight) →
    acc ≤ r → r < acc + totalWeight vs →
    (pickWeighted r vs acc).isSome = true := by
  intro vs
  induction vs with
  | nil =>
    intro acc r _ hlo hhi
    simp [totalWeight] at hhi
    omega
  | cons ic rest ih =>
    intro acc r hw hlo hhi
    simp only [pickWeighted]
    by_cases hr : r < acc + ic.2.weight
    · rw [if_pos hr]; rfl
    · rw [if_neg hr]
      refine ih (acc + ic.2.weight) r
        (fun x hx => hw x (List.mem_cons_of_mem _ hx)) (by omega) ?_
      have : totalWeight (ic :: rest) = ic.2.weight + totalWeight rest := by
        simp [totalWeight]
      omega

theorem availFrom_mem :
    ∀ (l : List (ClientWrapped T)) (i : Nat) (ic : Nat × ClientWrapped T),
    ic ∈ availFrom i l → ic.2 ∈ l := by
  intro l
  induction l with
  | nil => intro i ic h; simp [availFrom] at h
  | cons cw rest ih =>
    intro i ic h
    simp only [availFrom] at h
    by_cases hu : cw.unavailable = true
    · rw [if_pos hu] at h
      exact List.mem_cons_of_mem _ (ih _ _ h)
    · rw [if_neg hu] at h
      rcases List.mem_cons.mp h with he | hm
      · rw [he]; exact List.mem_cons_self _ _
      · exact List.mem_cons_of_mem _ (ih _ _ hm)

theorem lazyReset_weight (now cd : Int) (cw : ClientWrapped T) :
    (lazyReset now cd cw).weight = cw.weight := by
  simp only [lazyReset]
  by_cases h : cw.unavailable = true ∧ now - cw.lastFail > cd
  · rw [if_pos h]; rfl
  · rw [if_neg h]

theorem wrValid_weights (now : Int) (p : Pool Ctx T)
    (hw : ∀ cw ∈ p.clients, 1 ≤ cw.weight) :
    ∀ ic ∈ wrValid now p, 1 ≤ ic.2.weight := by
  intro ic hic
  have hmem : ic.2 ∈ wrClients now p := availFrom_mem _ 0 ic hic
  rcases List.mem_map.mp hmem with ⟨cw0, hcw0, he⟩
  rw [← he, lazyReset_weight]
  exact hw cw0 hcw0

/-- C7: for a non-empty pool whose handles have (registration-coerced)
weights `≥ 1`, `weightedRandom` lazily resets expired handles, then
fails with the no-available-client result exactly when the total weight
of the available subset is 0; otherwise, for any draw `r` with
`0 ≤ r < totalWeight`, it returns the member of the subset at the
unique position `i` whose weight interval
`[prefix i, prefix (i+1))` contains `r`. -/
theorem weightedRandom_prefix_sum_spec
    (p : Pool Ctx T) (now r : Int)
    (hlen : 0 < p.clients.length)
    (hw : ∀ cw ∈ p.clients, 1 ≤ cw.weight) :
    (totalWeight (wrValid now p) = 0 →
       weightedRandom now r p = (none, wrPool now p)) ∧
    (∀ (i : Nat) (hi : i < (wrValid now p).length),
       totalWeight (wrValid now p) ≠ 0 →
       prefixW (wrValid now p) i ≤ r → r < prefixW (wrValid now p) (i + 1) →
       weightedRandom now r p =
         (some ((wrValid now p).get ⟨i, hi⟩), wrPool now p)) ∧
    (totalWeight (wrValid now p) ≠ 0 → 0 ≤ r →
       r < totalWeight (wrValid now p) →
       ((weightedRandom now r p).1.isSome = true)) := by
  have hw0 : ∀ ic ∈ wrValid now p, 0 ≤ ic.2.weight :=
    fun ic hic => le_trans (by omega) (wrValid_weights now p hw ic hic)
  refine ⟨?_, ?_, ?_⟩
  · intro h0
    simp only [wrValid, wrClients] at h0
    rw [weightedRandom, if_neg (by omega), if_pos h0]
    rfl
  · intro i hi hne hlo hhi
    simp only [wrValid, wrClients] at hne
    rw [weightedRandom, if_neg (by omega), if_neg hne]
    have hpick := pickWeighted_spec (wrValid now p) 0 r i hi hw0
      (by omega) (by omega)
    simp only [wrValid, wrClients] at hpick
    rw [hpick]
    rfl
  · intro hne hlo hhi
    simp only [wrValid, wrClients] at hne
    rw [weightedRandom, if_neg (by omega), if_neg hne]
    have hpick := pickWeighted_isSome (wrValid now p) 0 r hw0 hlo (by omega)
    simp only [wrValid, wrClients] at hpick
    exact hpick

/-- Witness for C7: weights 1, 2, 3, draw `r = 1` lands in the second
handle's interval `[1, 3)`. -/
theorem weightedRandom_prefix_sum_spec_witness :
    weightedRandom 0 1 wPool =
      (some ((wrValid 0 wPool).get ⟨1, by decide⟩), wrPool 0 wPool) :=
  (weightedRandom_prefix_sum_spec wPool 0 1 (by decide) (by decide)).2.1
    1 (by decide) (by decide) (by decide) (by decide)

theorem doWithSelection_none (now : Int) (ctx : Ctx)
    (sel : Option (Nat × ClientWrapped T) × Pool Ctx T)
    (fn : Ctx → T → List Event × ExecResult) (h : sel.1 = none) :
    doWithSelection now ctx sel fn = (.err .noAvailableClient, [], sel.2) := by
  rcases sel with ⟨o, p'⟩
  cases o with
  | none => rfl
  | some pc => simp at h

theorem rrScan_none_clients (now : Int) :
    ∀ (fuel : Nat) (p : Pool Ctx T),
    (rrScan now fuel p).1 = none → (rrScan now fuel p).2.clients = p.clients := by
  intro fuel
  induction fuel with
  | zero => intro p _; rfl
  | succ fuel ih =>
    intro p h
    simp only [rrScan] at h ⊢
    cases hcw : p.clients[p.index % p.clients.length]? with
    | none => simp [hcw] at h ⊢
    | some cw =>
      simp only [hcw] at h ⊢
      by_cases h1 : cw.unavailable = true ∧ now - cw.lastFail > p.cooldown
      · rw [if_pos h1] at h; simp at h
      · rw [if_neg h1] at h ⊢
        by_cases h2 : cw.unavailable = true
        · rw [if_pos h2] at h ⊢
          exact ih _ h
        · rw [if_neg h2] at h; simp at h

theorem roundRobin_none_clients (now : Int) (p : Pool Ctx T)
    (h : (roundRobin now p).1 = none) :
    (roundRobin now p).2.clients = p.clients := by
  by_cases hlen : p.clients.length = 0
  · rw [roundRobin, if_pos hlen]
  · rw [roundRobin, if_neg hlen] at h ⊢
    exact rrScan_none_clients now p.clients.length p h

theorem random_none (now : Int) (j : Nat) (p : Pool Ctx T)
    (h : (random now j p).1 = none) :
    random now j p = (none, p) := by
  by_cases hlen : p.clients.length = 0
  · rw [random, if_pos hlen]
  · rw [random, if_neg hlen] at h ⊢
    cases hcw : p.clients[j]? with
    | none => rfl
    | some cw =>
      simp only [hcw] at h ⊢
      by_cases h1 : cw.unavailable = true ∧ now - cw.lastFail > p.cooldown
      · rw [if_pos h1] at h; simp at h
      · rw [if_neg h1] at h ⊢
        by_cases h2 : cw.unavailable = true
        · rw [if_pos h2]
        · rw [if_neg h2] at h; simp at h

theorem availFrom_eq_nil :
    ∀ (l : List (ClientWrapped T)) (i : Nat), availFrom i l = [] →
    ∀ cw ∈ l, cw.unavailable = true := by
  intro l
  induction l with
  | nil => intro i _ cw hcw; simp at hcw
  | cons c rest ih =>
    intro i h cw hcw
    simp only [availFrom] at h
    by_cases hu : c.unavailable = true
    · rw [if_pos hu] at h
      rcases List.mem_cons.mp hcw with he | hm
      · rw [he]; exact hu
      · exact ih _ h cw hm
    · rw [if_neg hu] at h
      exact absurd h (by simp)

theorem totalWeight_nonneg (vs : List (Nat × ClientWrapped T))
    (hw : ∀ ic ∈ vs, 0 ≤ ic.2.weight) : 0 ≤ totalWeight vs := by
  refine List.sum_nonneg ?_
  intro x hx
  rcases List.mem_map.mp hx with ⟨ic, hic, hxe⟩
  exact hxe ▸ hw ic hic

theorem totalWeight_eq_zero_iff_nil (vs : List (Nat × ClientWrapped T))
    (hw : ∀ ic ∈ vs, 1 ≤ ic.2.weight) (h : totalWeight vs = 0) : vs = [] := by
  cases vs with
  | nil => rfl
  | cons ic rest =>
    have h1 : totalWeight (ic :: rest) = ic.2.weight + totalWeight rest := by
      simp [totalWeight]
    have h2 : 1 ≤ ic.2.weight := hw ic (List.mem_cons_self _ _)
    have h3 : 0 ≤ totalWeight rest :=
      totalWeight_nonneg rest (fun x hx => by
        have := hw x (List.mem_cons_of_mem _ hx); omega)
    omega

theorem wr_clients_unchanged (now : Int) (p : Pool Ctx T)
    (hw : ∀ cw ∈ p.clients, 1 ≤ cw.weight)
    (h0 : totalWeight (wrValid now p) = 0) :
    wrClients now p = p.clients := by
  have hnil : wrValid now p = [] :=
    totalWeight_eq_zero_iff_nil _ (wrValid_weights now p hw) h0
  have hall : ∀ cw ∈ wrClients now p, cw.unavailable = true :=
    availFrom_eq_nil _ 0 hnil
  have hfix : ∀ cw ∈ p.clients, lazyReset now p.cooldown cw = cw := by
    intro cw hcw
    by_cases hc : cw.unavailable = true ∧ now - cw.lastFail > p.cooldown
    · have hmem : lazyReset now p.cooldown cw ∈ wrClients now p :=
        List.mem_map_of_mem _ hcw
      have := hall _ hmem
      rw [lazyReset, if_pos hc] at this
      simp [ResetAvailable] at this
    · rw [lazyReset, if_neg hc]
  calc wrClients now p = p.clients.map id := List.map_congr_left hfix
    _ = p.clients := List.map_id _

/-- C6: when selection fails (empty pool for any strategy, an
exhausted round-robin cycle, a tripped unexpired random draw, or zero
total weight), the Execute-family call returns the no-available-client
error for every operation and middleware chain, with an empty event
trace and no handle's failure state changed. -/
theorem selection_failure_short_circuit
    (now r : Int) (j : Nat) (ctx : Ctx)
    (fn : Ctx → T → List Event × ExecResult) :
    (∀ p : Pool Ctx T, p.clients = [] →
      DoRoundRobinClient now ctx p fn = (.err .noAvailableClient, [], p) ∧
      DoRandomClient now j ctx p fn = (.err .noAvailableClient, [], p) ∧
      DoWeightedRandomClient now r ctx p fn = (.err .noAvailableClient, [], p)) ∧
    (∀ p : Pool Ctx T, (roundRobin now p).1 = none →
      DoRoundRobinClient now ctx p fn =
        (.err .noAvailableClient, [], (roundRobin now p).2) ∧
      (roundRobin now p).2.clients = p.clients) ∧
    (∀ p : Pool Ctx T, (random now j p).1 = none →
      DoRandomClient now j ctx p fn = (.err .noAvailableClient, [], p)) ∧
    (∀ p : Pool Ctx T, (∀ cw ∈ p.clients, 1 ≤ cw.weight) →
      totalWeight (wrValid now p) = 0 →
      DoWeightedRandomClient now r ctx p fn =
        (.err .noAvailableClient, [], (weightedRandom now r p).2) ∧
      (weightedRandom now r p).2.clients = p.clients) := by
  refine ⟨?_, ?_, ?_, ?_⟩
  · intro p hc
    have hlen : p.clients.length = 0 := by rw [hc]; rfl
    have hrr : roundRobin now p = (none, p) := by rw [roundRobin, if_pos hlen]
    have hrd : random now j p = (none, p) := by rw [random, if_pos hlen]
    have hwr : weightedRandom now r p = (none, p) := by
      rw [weightedRandom, if_pos hlen]
    refine ⟨?_, ?_, ?_⟩
    · rw [DoRoundRobinClient, hrr]; exact doWithSelection_none now ctx _ fn rfl
    · rw [DoRandomClient, hrd]; exact doWithSelection_none now ctx _ fn rfl
    · rw [DoWeightedRandomClient, hwr]; exact doWithSelection_none now ctx _ fn rfl
  · intro p h
    refine ⟨?_, roundRobin_none_clients now p h⟩
    rw [DoRoundRobinClient]
    exact doWithSelection_none now ctx _ fn h
  · intro p h
    rw [DoRandomClient, random_none now j p h]
    exact doWithSelection_none now ctx _ fn rfl
  · intro p hw h0
    constructor
    · rw [DoWeightedRandomClient]
      refine doWithSelection_none now ctx _ fn ?_
      by_cases hlen : p.clients.length = 0
      · rw [weightedRandom, if_pos hlen]
      · have h0' : totalWeight (availFrom 0 (p.clients.map (lazyReset now p.cooldown))) = 0 := by
          simpa [wrValid, wrClients] using h0
        rw [weightedRandom, if_neg hlen, if_pos h0']
    · by_cases hlen : p.clients.length = 0
      · rw [weightedRandom, if_pos hlen]
      · have h0' : totalWeight (availFrom 0 (p.clients.map (lazyReset now p.cooldown))) = 0 := by
          simpa [wrValid, wrClients] using h0
        rw [weightedRandom, if_neg hlen, if_pos h0']
        have := wr_clients_unchanged now p hw h0
        simpa [wrClients] using this

/-- Witness for C6: the freshly constructed empty pool short-circuits a
round-robin Execute call with the no-available-client error. -/
theorem selection_failure_short_circuit_witness :
    DoRoundRobinClient 0 () (NewClientPool 3 10 .RoundRobin : Pool Unit Unit) okOp =
      (.err .noAvailableClient, [], NewClientPool 3 10 .RoundRobin) :=
  ((selection_failure_short_circuit 0 0 0 () okOp).1 _ rfl).1

/-- Counterexample to C5 as stated: on `cexPool` (handle `a` available,
handle `b` tripped with 3 failures and an expired cooldown),
`DoWeightedRandomClient` at instant 100 selects handle `a` (position 0)
and succeeds, yet handle `b`'s consecutive-failure count changes from 3
to 0 — a non-selected handle's failure state was changed by the pool
(the lazy expiry reset in the selection scan). -/
theorem do_weightedRandom_changes_other_handle_cex :
    (DoWeightedRandomClient 100 0 () cexPool okOp).1 = .ok ∧
    ((weightedRandom 100 0 cexPool).1.map (fun pc => pc.1)) = some 0 ∧
    ((DoWeightedRandomClient 100 0 () cexPool okOp).2.2.clients.getD 1 default).failCount = 0 ∧
    (cexPool.clients.getD 1 default).failCount = 3 := by decide

theorem rrScan_some_shape (now : Int) :
    ∀ (fuel : Nat) (p : Pool Ctx T) (pos : Nat) (cw : ClientWrapped T),
    (rrScan now fuel p).1 = some (pos, cw) →
    ∃ cw₀, p.clients[pos]? = some cw₀ ∧ cw = lazyReset now p.cooldown cw₀ ∧
      (rrScan now fuel p).2.clients = p.clients.set pos cw := by
  intro fuel
  induction fuel with
  | zero => intro p pos cw h; simp [rrScan] at h
  | succ fuel ih =>
    intro p pos cw h
    simp only [rrScan] at h ⊢
    cases hcw : p.clients[p.index % p.clients.length]? with
    | none => simp [hcw] at h
    | some cw₀ =>
      simp only [hcw] at h ⊢
      by_cases h1 : cw₀.unavailable = true ∧ now - cw₀.lastFail > p.cooldown
      · rw [if_pos h1] at h ⊢
        simp only [Prod.mk.injEq, Option.some.injEq] at h
        obtain ⟨hpos, hcw'⟩ := h
        refine ⟨cw₀, ?_, ?_, ?_⟩
        · rw [← hpos]; exact hcw
        · rw [← hcw', lazyReset, if_pos h1]
        · simp only [← hpos, ← hcw']
      · rw [if_neg h1] at h ⊢
        by_cases h2 : cw₀.unavailable = true
        · rw [if_pos h2] at h ⊢
          exact ih _ pos cw h
        · rw [if_neg h2] at h ⊢
          simp only [Prod.mk.injEq, Option.some.injEq] at h
          obtain ⟨hpos, hcw'⟩ := h
          refine ⟨cw₀, ?_, ?_, ?_⟩
          · rw [← hpos]; exact hcw
          · rw [← hcw', lazyReset, if_neg h1]
          · rw [← hpos, ← hcw', list_set_self _ _ _ hcw]

theorem roundRobin_some_shape (now : Int) (p : Pool Ctx T) (pos : Nat)
    (cw : ClientWrapped T) (h : (roundRobin now p).1 = some (pos, cw)) :
    ∃ cw₀, p.clients[pos]? = some cw₀ ∧ cw = lazyReset now p.cooldown cw₀ ∧
      (roundRobin now p).2.clients = p.clients.set pos cw := by
  by_cases hlen : p.clients.length = 0
  · rw [roundRobin, if_pos hlen] at h; simp at h
  · rw [roundRobin, if_neg hlen] at h ⊢
    exact rrScan_some_shape now _ p pos cw h

theorem weightedRandom_some_pool (now r : Int) (p : Pool Ctx T)
    (h : (weightedRandom now r p).1.isSome = true) :
    (weightedRandom now r p).2 = wrPool now p := by
  by_cases hlen : p.clients.length = 0
  · rw [weightedRandom, if_pos hlen] at h; simp at h
  · rw [weightedRandom, if_neg hlen] at h ⊢
    by_cases h0 : totalWeight (availFrom 0 (p.clients.map (lazyReset now p.cooldown))) = 0
    · rw [if_pos h0] at h; simp at h
    · rw [if_neg h0]
      rfl

/-- C5 (amended): for every Execute-family call in which selection
succeeds, exactly one outcome is recorded, on exactly the selected
handle — `MarkFail` when the chain-wrapped invocation returned an error
and `MarkSuccess` otherwise — and the recording changes no other
handle; selection itself leaves every other handle unchanged for
RoundRobin and Random, and at most applies the lazy cooldown-expiry
reset for WeightedRandom. -/
theorem execute_marks_exactly_selected_handle (now : Int) (ctx : Ctx)
    (fn : Ctx → T → List Event × ExecResult) :
    (∀ (sel : Option (Nat × ClientWrapped T) × Pool Ctx T) (pos : Nat)
       (cw : ClientWrapped T) (e : GoErr), sel.1 = some (pos, cw) →
       (executeWithMiddleware sel.2 ctx cw fn).2 = .err e →
       (doWithSelection now ctx sel fn).2.2 =
         { sel.2 with
            clients := sel.2.clients.set pos (MarkFail sel.2.maxFails now cw) }) ∧
    (∀ (sel : Option (Nat × ClientWrapped T) × Pool Ctx T) (pos : Nat)
       (cw : ClientWrapped T), sel.1 = some (pos, cw) →
       (executeWithMiddleware sel.2 ctx cw fn).2 = .ok →
       (doWithSelection now ctx sel fn).2.2 =
         { sel.2 with clients := sel.2.clients.set pos (MarkSuccess cw) }) ∧
    (∀ (sel : Option (Nat × ClientWrapped T) × Pool Ctx T) (pos : Nat)
       (cw : ClientWrapped T) (q : Nat), sel.1 = some (pos, cw) → q ≠ pos →
       (doWithSelection now ctx sel fn).2.2.clients[q]? = sel.2.clients[q]?) ∧
    (∀ (p : Pool Ctx T) (pos : Nat) (cw : ClientWrapped T) (q : Nat),
       (roundRobin now p).1 = some (pos, cw) → q ≠ pos →
       (roundRobin now p).2.clients[q]? = p.clients[q]?) ∧
    (∀ (p : Pool Ctx T) (j pos : Nat) (cw : ClientWrapped T) (q : Nat),
       (random now j p).1 = some (pos, cw) → q ≠ pos →
       (random now j p).2.clients[q]? = p.clients[q]?) ∧
    (∀ (p : Pool Ctx T) (r : Int) (pos : Nat) (cw : ClientWrapped T) (q : Nat),
       (weightedRandom now r p).1 = some (pos, cw) →
       (weightedRandom now r p).2.clients[q]? =
         (p.clients[q]?).map (lazyReset now p.cooldown)) := by
  refine ⟨?_, ?_, ?_, ?_, ?_, ?_⟩
  · rintro ⟨o, p'⟩ pos cw e h hres
    cases o with
    | none => simp at h
    | some pc =>
      simp only [Option.some.injEq] at h
      subst h
      simp only [doWithSelection, hres]
  · rintro ⟨o, p'⟩ pos cw h hres
    cases o with
    | none => simp at h
    | some pc =>
      simp only [Option.some.injEq] at h
      subst h
      simp only [doWithSelection, hres]
  · rintro ⟨o, p'⟩ pos cw q h hq
    cases o with
    | none => simp at h
    | some pc =>
      simp only [Option.some.injEq] at h
      subst h
      simp only [doWithSelection]
      cases hres : (executeWithMiddleware p' ctx cw fn).2 with
      | ok => simp only [List.getElem?_set_ne (fun he => hq he.symm)]
      | err e => simp only [List.getElem?_set_ne (fun he => hq he.symm)]
      | panicked s => rfl
  · intro p pos cw q h hq
    obtain ⟨cw₀, _, _, hcl⟩ := roundRobin_some_shape now p pos cw h
    rw [hcl]
    exact List.getElem?_set_ne (fun he => hq he.symm)
  · intro p j pos cw q h hq
    by_cases hlen : p.clients.length = 0
    · rw [random, if_pos hlen] at h; simp at h
    · rw [random, if_neg hlen] at h ⊢
      cases hcw : p.clients[j]? with
      | none => simp [hcw] at h
      | some cw₀ =>
        simp only [hcw] at h ⊢
        by_cases h1 : cw₀.unavailable = true ∧ now - cw₀.lastFail > p.cooldown
        · rw [if_pos h1] at h ⊢
          simp only [Prod.mk.injEq, Option.some.injEq] at h
          obtain ⟨hpos, _⟩ := h
          subst hpos
          exact List.getElem?_set_ne (fun he => hq he.symm)
        · rw [if_neg h1] at h ⊢
          by_cases h2 : cw₀.unavailable = true
          · rw [if_pos h2] at h; simp at h
          · rw [if_neg h2]
  · intro p r pos cw q h
    have hpool := weightedRandom_some_pool now r p (by rw [h]; rfl)
    rw [hpool]
    simp only [wrPool, wrClients]
    exact List.getElem?_map _ _ _

theorem rrScan_fields (now : Int) :
    ∀ (fuel : Nat) (p : Pool Ctx T),
    (rrScan now fuel p).2.middlewares = p.middlewares ∧
    (rrScan now fuel p).2.maxFails = p.maxFails := by
  intro fuel
  induction fuel with
  | zero => intro p; exact ⟨rfl, rfl⟩
  | succ fuel ih =>
    intro p
    simp only [rrScan]
    cases hcw : p.clients[p.index % p.clients.length]? with
    | none => exact ⟨rfl, rfl⟩
    | some cw =>
      simp only [hcw]
      by_cases h1 : cw.unavailable = true ∧ now - cw.lastFail > p.cooldown
      · rw [if_pos h1]; exact ⟨rfl, rfl⟩
      · rw [if_neg h1]
        by_cases h2 : cw.unavailable = true
        · rw [if_pos h2]; exact ih _
        · rw [if_neg h2]; exact ⟨rfl, rfl⟩

theorem roundRobin_fields (now : Int) (p : Pool Ctx T) :
    (roundRobin now p).2.middlewares = p.middlewares ∧
    (roundRobin now p).2.maxFails = p.maxFails := by
  by_cases hlen : p.clients.length = 0
  · rw [roundRobin, if_pos hlen]; exact ⟨rfl, rfl⟩
  · rw [roundRobin, if_neg hlen]; exact rrScan_fields now _ p

/-- C9: construction installs the Recovery middleware as the sole
(hence first/outermost) chain entry before any user registration, which
appends; with that chain, a panic raised inside the operation makes the
Execute call return the `panic recovered` error instead of propagating,
and the selected handle's failure count is incremented exactly once. -/
theorem recovery_outermost_panic_spec (mf cd : Int) (b : BalancerType) :
    (((NewClientPool mf cd b : Pool Ctx T)).middlewares =
       [RecoverMiddleware]) ∧
    (∀ (p : Pool Ctx T) (m : Middleware Ctx T),
       (RegisterMiddleware p m).middlewares = p.middlewares ++ [m]) ∧
    (∀ (p : Pool Ctx T) (now : Int) (ctx : Ctx) (pos : Nat)
       (cw : ClientWrapped T) (fn : Ctx → T → List Event × ExecResult)
       (tr : List Event) (s : String),
       p.middlewares = [RecoverMiddleware] →
       (roundRobin now p).1 = some (pos, cw) →
       fn ctx cw.client = (tr, .panicked s) →
       DoRoundRobinClient now ctx p fn =
         (.err (.panicRecovered s), tr,
          { (roundRobin now p).2 with
             clients := (roundRobin now p).2.clients.set pos
               (MarkFail (roundRobin now p).2.maxFails now cw) }) ∧
       (MarkFail (roundRobin now p).2.maxFails now cw).failCount =
         cw.failCount + 1) := by
  refine ⟨rfl, fun p m => rfl, ?_⟩
  intro p now ctx pos cw fn tr s hmw hsel hfn
  refine ⟨?_, rfl⟩
  have hmw' : (roundRobin now p).2.middlewares = [RecoverMiddleware] := by
    rw [(roundRobin_fields now p).1, hmw]
  have hexec : executeWithMiddleware (roundRobin now p).2 ctx cw fn =
      (tr, .err (.panicRecovered s)) := by
    show chainHandler (roundRobin now p).2.middlewares fn ctx cw = _
    rw [hmw']
    show RecoverMiddleware.Execute ctx cw
      (chainHandler [] fn) = _
    show (match chainHandler [] fn ctx cw with
      | (tr, ExecResult.panicked s) => (tr, ExecResult.err (.panicRecovered s))
      | r => r) = _
    show (match fn ctx cw.client with
      | (tr, ExecResult.panicked s) => (tr, ExecResult.err (.panicRecovered s))
      | r => r) = _
    rw [hfn]
  rcases hp : roundRobin now p with ⟨o, p'⟩
  rw [hp] at hsel hexec
  cases o with
  | none => exact absurd hsel (by simp)
  | some pc =>
    have hsel' : pc = (pos, cw) := by simpa using hsel
    subst hsel'
    have hexec' : executeWithMiddleware p' ctx cw fn =
        (tr, .err (.panicRecovered s)) := hexec
    show doWithSelection now ctx (roundRobin now p) fn = _
    rw [hp]
    simp only [doWithSelection, hexec']

/-- Witness for C5 (amended): a successful call on the selected first
handle of the three-handle pool marks exactly position 0 with
`MarkSuccess`. -/
theorem execute_marks_exactly_selected_handle_witness :
    (doWithSelection 0 () (some (0, NewClientWrapper () "c1" 1), threePool)
        okOp).2.2 =
      { threePool with
         clients := threePool.clients.set 0
           (MarkSuccess (NewClientWrapper () "c1" 1)) } :=
  (execute_marks_exactly_selected_handle 0 () okOp).2.1
    (some (0, NewClientWrapper () "c1" 1), threePool) 0
    (NewClientWrapper () "c1" 1) rfl rfl

/-- Witness for C9: a panicking operation on the fresh three-handle
pool returns the recovered-panic error and marks one failure on the
selected handle. -/
theorem recovery_outermost_panic_spec_witness :
    DoRoundRobinClient 0 () threePool (panicOp "boom") =
      (.err (.panicRecovered "boom"), [Event.op],
       { (roundRobin 0 threePool).2 with
          clients := (roundRobin 0 threePool).2.clients.set 0
            (MarkFail (roundRobin 0 threePool).2.maxFails 0
              (NewClientWrapper () "c1" 1)) }) :=
  ((recovery_outermost_panic_spec 3 100 .RoundRobin).2.2 threePool 0 () 0
    (NewClientWrapper () "c1" 1) (panicOp "boom") [Event.op] "boom"
    rfl (by decide) rfl).1

end ClientPool
